import Mathlib

/-!
Shallow embedding of `pratt.py`: the tokenizer, the token classes with
their binding powers, the Pratt parsing engine (`Parser.parse`, `nud`,
`led`, the `handle_nul` / `handle_left` methods) and the `__repr__`
rendering of AST values.  Recursion in the parser is modelled with an
explicit fuel parameter; `Err.outOfFuel` marks fuel exhaustion and is
proved unreachable once the fuel is at least `3 * length + 3`.
-/

namespace Pratt

/-- Tokens: one constructor per token class of the source (`EOF`, `ID`,
`Num`, and the `ConstToken` subclasses `RParen`, `Comma`, `LParen`,
`Plus`, `Minus`, `Div`, `Mult`, `Exp`). -/
inductive Tok where
  | EOF
  | ID (value : String)
  | Num (value : Nat)
  | RParen
  | Comma
  | LParen
  | Plus
  | Minus
  | Div
  | Mult
  | Exp
deriving DecidableEq

/-- The `prio` class attribute of each token class (the base class default
is 0). -/
def Tok.prio : Tok → Nat
  | .LParen => 80
  | .Exp => 40
  | .Mult => 30
  | .Div => 20
  | .Plus => 10
  | .Minus => 10
  | _ => 0

/-- Whether the token class overrides `handle_nul` (its behaviour when it
appears where a value is expected); the base class leaves it `None`. -/
def hasNud : Tok → Bool
  | .ID _ => true
  | .Num _ => true
  | .LParen => true
  | .Plus => true
  | .Minus => true
  | _ => false

/-- Whether the token class overrides `handle_left`; the base class leaves
it `None`. -/
def hasLed : Tok → Bool
  | .LParen => true
  | .Plus => true
  | .Minus => true
  | .Div => true
  | .Mult => true
  | .Exp => true
  | _ => false

/-- The value stored in the `operator` field of a node: either a named
function (the ones imported from the `operator` module, whose `__name__`
is stored here) or a plain Python string, for which `operator_name` falls
back to `repr`. -/
inductive OpVal where
  | func (name : String)
  | pyStr (s : String)
deriving DecidableEq

/-- `operator.add` (its `__name__` is "add"). -/
def add : OpVal := .func ("add")

/-- `operator.sub` (its `__name__` is "sub"). -/
def sub : OpVal := .func ("sub")

/-- `operator.mul` (its `__name__` is "mul"). -/
def mul : OpVal := .func ("mul")

/-- `operator.ifloordiv` (its `__name__` is "ifloordiv"). -/
def ifloordiv : OpVal := .func ("ifloordiv")

/-- `operator.pow` (its `__name__` is "pow"). -/
def pow : OpVal := .func ("pow")

/-- A single-quote character, used by the Python `repr` of a string. -/
def sq : String := String.mk [Char.ofNat 39]

/-- `operator_name`: the `__name__` of a function, or `repr` for values
without a `__name__` (a Python string `s` has `repr` `'s'`). -/
def operator_name : OpVal → String
  | .func n => n
  | .pyStr s => sq ++ s ++ sq

/-- The values the parser manipulates: bare Python ints and strings
(leaves), `Node` (built with exactly two operands by `infix`/`infixr`
handlers), `UnitNode`, and `CallNode`. -/
inductive Value where
  | ofNum (n : Nat)
  | ofStr (s : String)
  | Node (op : OpVal) (left right : Value)
  | UnitNode (op : OpVal) (param : Value)
  | CallNode (funcName : String) (args : List Value)

mutual

/-- Python `repr` of a parsed value: ints print bare, strings quoted,
nodes as `(name children)` and calls as `name(arg, arg)`. -/
def pyRepr : Value → String
  | .ofNum n => toString n
  | .ofStr s => sq ++ s ++ sq
  | .Node op l r =>
    "(" ++ operator_name op ++ " " ++ pyRepr l ++ " " ++ pyRepr r ++ ")"
  | .UnitNode op p => "(" ++ operator_name op ++ " " ++ pyRepr p ++ ")"
  | .CallNode f args => f ++ "(" ++ pyReprList args ++ ")"

/-- The comma-join of the `repr`s of a call's arguments. -/
def pyReprList : List Value → String
  | [] => ""
  | [v] => pyRepr v
  | v :: w :: t => pyRepr v ++ ", " ++ pyReprList (w :: t)

end

/-- Errors: one constructor per way the Python program raises during
tokenizing or parsing, plus `outOfFuel`, the artefact of the fuelled
embedding.  `emptyNext` and `emptyPeek` are the `IndexError`s of
`Lexer.next` / `Lexer.peek` on an exhausted stream; `nudNone` is the
`TypeError` of calling a `None` `handle_nul`; `notOperator`,
`expectedRParen`, `expectedComma`, `unrecognised` are the `ValueError`s;
`callNonIdent` is the `AssertionError` of `LParen.handle_left`. -/
inductive Err where
  | outOfFuel
  | emptyNext
  | emptyPeek
  | nudNone (t : Tok)
  | notOperator (t : Tok)
  | expectedRParen (got : Tok)
  | expectedComma (got : Tok)
  | callNonIdent
  | unrecognised (s : String)
deriving DecidableEq

/-- `isinstance(t, RParen)`. -/
def isRParen : Tok → Bool
  | .RParen => true
  | _ => false

/-- `isinstance(t, Comma)`. -/
def isComma : Tok → Bool
  | .Comma => true
  | _ => false

/-- The five mutually recursive pieces of the parsing engine, packaged as
one sum so that the engine is a single structurally recursive function of
the fuel: `parse up ts` is `Parser.parse(up)` on stream `ts`; `nud t rest`
is `Parser.nud` after `t` was popped; `loop up left ts` is the
continuation loop inside `Parser.parse`; `led t left rest` is
`Parser.led` after `t` was popped; `callArgs name args ts` is the
argument loop of `LParen.handle_left`. -/
inductive Job where
  | parse (up : Nat) (ts : List Tok)
  | nud (t : Tok) (rest : List Tok)
  | loop (up : Nat) (left : Value) (ts : List Tok)
  | led (t : Tok) (left : Value) (rest : List Tok)
  | callArgs (name : String) (args : List Value) (ts : List Tok)

/-- One step of the engine; every Python-level call or loop iteration
consumes one unit of fuel. -/
def run : Nat → Job → Except Err (Value × List Tok)
  | 0, _ => .error .outOfFuel
  | fuel + 1, .parse up ts =>
    match ts with
    | [] => .error .emptyNext
    | t :: rest =>
      match run fuel (.nud t rest) with
      | .error e => .error e
      | .ok (left, ts1) => run fuel (.loop up left ts1)
  | fuel + 1, .nud t rest =>
    match t with
    | .ID s => .ok (.ofStr s, rest)
    | .Num n => .ok (.ofNum n, rest)
    | .LParen =>
      match run fuel (.parse 0 rest) with
      | .error e => .error e
      | .ok (res, ts1) =>
        match ts1 with
        | [] => .error .emptyNext
        | u :: ts2 => if isRParen u then .ok (res, ts2) else .error (.expectedRParen u)
    | .Plus => run fuel (.parse (Tok.prio .Plus) rest)
    | .Minus =>
      match run fuel (.parse (Tok.prio .Minus) rest) with
      | .error e => .error e
      | .ok (v, ts1) => .ok (.UnitNode (.pyStr ("-")) v, ts1)
    | _ => .error (.nudNone t)
  | fuel + 1, .loop up left ts =>
    match ts with
    | [] => .error .emptyPeek
    | t :: rest =>
      if Tok.prio t > up then
        match run fuel (.led t left rest) with
        | .error e => .error e
        | .ok (left2, ts1) => run fuel (.loop up left2 ts1)
      else .ok (left, t :: rest)
  | fuel + 1, .led t left rest =>
    match t with
    | .Plus =>
      match run fuel (.parse (Tok.prio .Plus) rest) with
      | .error e => .error e
      | .ok (r, ts1) => .ok (.Node add left r, ts1)
    | .Minus =>
      match run fuel (.parse (Tok.prio .Minus) rest) with
      | .error e => .error e
      | .ok (r, ts1) => .ok (.Node sub left r, ts1)
    | .Div =>
      match run fuel (.parse (Tok.prio .Div) rest) with
      | .error e => .error e
      | .ok (r, ts1) => .ok (.Node ifloordiv left r, ts1)
    | .Mult =>
      match run fuel (.parse (Tok.prio .Mult) rest) with
      | .error e => .error e
      | .ok (r, ts1) => .ok (.Node mul left r, ts1)
    | .Exp =>
      match run fuel (.parse (Tok.prio .Exp - 1) rest) with
      | .error e => .error e
      | .ok (r, ts1) => .ok (.Node pow left r, ts1)
    | .LParen =>
      match left with
      | .ofStr name => run fuel (.callArgs name [] rest)
      | _ => .error .callNonIdent
    | _ => .error (.notOperator t)
  | fuel + 1, .callArgs name args ts =>
    match ts with
    | [] => .error .emptyPeek
    | t :: rest =>
      if isRParen t then .ok (.CallNode name args, rest)
      else
        match run fuel (.parse 0 (t :: rest)) with
        | .error e => .error e
        | .ok (v, ts1) =>
          match ts1 with
          | [] => .error .emptyNext
          | u :: ts2 =>
            if isComma u then run fuel (.callArgs name (args ++ [v]) ts2)
            else .error (.expectedComma u)

/-- `Parser.parse(up_prio)` on token stream `ts`, with fuel. -/
def parse (fuel up : Nat) (ts : List Tok) : Except Err (Value × List Tok) :=
  run fuel (.parse up ts)

/-- `Parser.nud(token)` after `token` was popped, with fuel. -/
def nud (fuel : Nat) (t : Tok) (rest : List Tok) : Except Err (Value × List Tok) :=
  run fuel (.nud t rest)

/-- The `while lexer.peek().prio > up_prio` loop of `Parser.parse`. -/
def loop (fuel up : Nat) (left : Value) (ts : List Tok) : Except Err (Value × List Tok) :=
  run fuel (.loop up left ts)

/-- `Parser.led(left, token)` after `token` was popped, with fuel. -/
def led (fuel : Nat) (t : Tok) (left : Value) (rest : List Tok) : Except Err (Value × List Tok) :=
  run fuel (.led t left rest)

/-- The argument-collecting loop of `LParen.handle_left`. -/
def callArgs (fuel : Nat) (name : String) (args : List Value) (ts : List Tok) :
    Except Err (Value × List Tok) :=
  run fuel (.callArgs name args ts)

/-- A word character for the regex class `\w`. -/
def isWordChar (c : Char) : Bool := c.isAlphanum || c = '_'

/-- Emit the pending run of characters as a fragment, if non-empty. -/
def emitRun (runChars : List Char) : List String :=
  if runChars.isEmpty then [] else [String.mk runChars]

/-- The fragments produced by `re.split(TOKEN_SPLITTER, line)` after
dropping `None` and empty entries: spaces separate; a maximal run of word
characters is one fragment; each parenthesis is its own fragment; a
maximal run of any other characters is one fragment.  `runChars` is the
pending run, `wordRun` records whether it is a word run. -/
def fragsAux : List Char → List Char → Bool → List String
  | [], runChars, _ => emitRun runChars
  | c :: cs, runChars, wordRun =>
    if c = ' ' then emitRun runChars ++ fragsAux cs [] false
    else if c = '(' || c = ')' then
      emitRun runChars ++ [String.mk [c]] ++ fragsAux cs [] false
    else if isWordChar c then
      if wordRun || runChars.isEmpty then fragsAux cs (runChars ++ [c]) true
      else emitRun runChars ++ fragsAux cs [c] true
    else
      if wordRun then emitRun runChars ++ fragsAux cs [c] false
      else fragsAux cs (runChars ++ [c]) false

/-- All fragments of a line. -/
def fragments (line : String) : List String := fragsAux line.data [] false

/-- `ConstToken.tok_map`: the registered constant tokens. -/
def constTok (s : String) : Option Tok :=
  if s = ")" then some .RParen
  else if s = "," then some .Comma
  else if s = "(" then some .LParen
  else if s = "+" then some .Plus
  else if s = "-" then some .Minus
  else if s = "/" then some .Div
  else if s = "*" then some .Mult
  else if s = "^" then some .Exp
  else none

/-- `int(token)` on a string of digits (48 is the code of the digit 0). -/
def natOfDigits (cs : List Char) : Nat :=
  cs.foldl (fun n c => 10 * n + (c.toNat - 48)) 0

/-- `token.strip()`: drop leading and trailing whitespace. -/
def pyStrip (s : String) : String :=
  String.mk (((s.data.dropWhile Char.isWhitespace).reverse.dropWhile Char.isWhitespace).reverse)

/-- The per-fragment branch of `tokenize`: strip, skip empties, then
constant token first, then all-digits, then all-alphabetic, else a
`ValueError`. -/
def tokensOfFrags : List String → Except Err (List Tok)
  | s0 :: rest =>
    let s := pyStrip s0
    if s = "" then tokensOfFrags rest
    else
      match constTok s with
      | some t =>
        match tokensOfFrags rest with
        | .error e => .error e
        | .ok ts => .ok (t :: ts)
      | none =>
        if s.data.all Char.isDigit then
          match tokensOfFrags rest with
          | .error e => .error e
          | .ok ts => .ok (.Num (natOfDigits s.data) :: ts)
        else if s.data.all Char.isAlpha then
          match tokensOfFrags rest with
          | .error e => .error e
          | .ok ts => .ok (.ID s :: ts)
        else .error (.unrecognised s)
  | [] => .ok [.EOF]

/-- `list(tokenize(line))`: the token list, ending with the `EOF`
sentinel, or the tokenizer's `ValueError`. -/
def tokenize (line : String) : Except Err (List Tok) :=
  tokensOfFrags (fragments line)

/-- The driver: tokenize, then `Parser().parse()`, returning the value
(leftover tokens after the parsed expression are not checked). -/
def parseLine (line : String) : Except Err Value :=
  match tokenize line with
  | .error e => .error e
  | .ok ts =>
    match parse (3 * ts.length + 3) 0 ts with
    | .error e => .error e
    | .ok (v, _) => .ok v

/-- The token list still ends with the `EOF` sentinel that `tokenize`
always appends. -/
def endsEOF (ts : List Tok) : Prop := ts.getLast? = some .EOF

/-- What a successful engine step guarantees about its remaining stream:
the result stream is a suffix of the input stream, strictly shorter for
the pieces that always consume, and non-empty after the continuation
loop, whose exit requires a successful peek. -/
def SuffixPost : Job → Value × List Tok → Prop
  | .parse _ ts, (_, ts') => ts' <:+ ts ∧ ts'.length < ts.length
  | .nud _ rest, (_, ts') => ts' <:+ rest
  | .loop _ _ ts, (_, ts') => ts' <:+ ts ∧ ts' ≠ []
  | .led _ _ rest, (_, ts') => ts' <:+ rest ∧ ts'.length < rest.length
  | .callArgs _ _ ts, (_, ts') => ts' <:+ ts ∧ ts'.length < ts.length

/-- Fuel sufficient for a job, linear in the length of its stream. -/
def fuelReq : Job → Nat
  | .parse _ ts => 3 * ts.length + 3
  | .nud _ rest => 3 * rest.length + 4
  | .loop _ _ ts => 3 * ts.length + 3
  | .led _ _ rest => 3 * rest.length + 5
  | .callArgs _ _ ts => 3 * ts.length + 4

/-- The precondition of a job: its stream still carries the `EOF`
sentinel (for `nud`, the stream including the just-popped token). -/
def jobPre : Job → Prop
  | .parse _ ts => endsEOF ts
  | .nud t rest => endsEOF (t :: rest)
  | .loop _ _ ts => endsEOF ts
  | .led _ _ rest => endsEOF rest
  | .callArgs _ _ ts => endsEOF ts

/-- A result that exhausted neither the fuel nor the token list:
no fuel-artefact error, no `IndexError` from `Lexer.next` or
`Lexer.peek`, and the sentinel is still present on success. -/
def NoEmptyPost (r : Except Err (Value × List Tok)) : Prop :=
  r ≠ .error .outOfFuel ∧ r ≠ .error .emptyNext ∧ r ≠ .error .emptyPeek ∧
  ∀ v ts', r = .ok (v, ts') → endsEOF ts'

/-- C1: the call-argument loop of `LParen.handle_left` runs
`lexer.expect(Comma)` unconditionally after each parsed argument, so a
call written without a trailing comma, such as `f(1, 2, 3)`, fails with
the `expected Comma` error when the token after the last argument is `)`;
only the trailing-comma form `f(1, 2, 3,)` and the zero-argument form
`f()` succeed. -/
theorem C1_call_no_trailing_comma_fails :
    parseLine ("f(1, 2, 3)") = .error (.expectedComma .RParen) ∧
    parseLine ("f(1)") = .error (.expectedComma .RParen) ∧
    parseLine ("f(1, 2, 3,)") =
      .ok (.CallNode ("f") [.ofNum 1, .ofNum 2, .ofNum 3]) ∧
    parseLine ("f()") = .ok (.CallNode ("f") []) :=
  ⟨rfl, rfl, rfl, rfl⟩

/-- C2 counterexample: the unary-minus node stores the string `-` as its
operator, and `operator_name` falls back to `repr`, so `"-2 + 3"` does
not render as `(add (negate 2) 3)`. -/
theorem C2_render_counterexample :
    (parseLine ("-2 + 3")).map pyRepr ≠ .ok ("(add (negate 2) 3)") := by
  intro h
  rw [show (parseLine ("-2 + 3")).map pyRepr
        = .ok ("(add (" ++ sq ++ "-" ++ sq ++ " 2) 3)") from rfl] at h
  exact absurd (Except.ok.inj h) (by decide)

/-- C2 amended: parsing `"-2 + 3"` yields `Node(add, UnitNode('-', 2), 3)`
where the unary operator is the string `-`, rendered through the `repr`
fallback of `operator_name` as `'-'` (quoted), so the whole expression
renders as `(add ('-' 2) 3)`; the prefix behaviour of `-` parses its
operand at its own binding power 10 and wraps it in a `UnitNode`. -/
theorem C2_unary_minus_amended :
    parseLine ("-2 + 3") =
      .ok (.Node add (.UnitNode (.pyStr ("-")) (.ofNum 2)) (.ofNum 3)) ∧
    (parseLine ("-2 + 3")).map pyRepr =
      .ok ("(add (" ++ sq ++ "-" ++ sq ++ " 2) 3)") ∧
    Tok.prio .Minus = 10 ∧
    (∀ fuel rest, nud (fuel + 1) .Minus rest =
      (match parse fuel 10 rest with
       | .error e => .error e
       | .ok (v, ts1) => .ok (.UnitNode (.pyStr ("-")) v, ts1))) :=
  ⟨rfl, rfl, rfl, fun _ _ => rfl⟩

/-- C3 counterexample: the token splitter only separates word runs and
parentheses, so the two adjacent operator characters in `"1 +- 2"` stay
one fragment and the tokenizer fails with `unrecognised token` instead of
producing two symbol tokens. -/
theorem C3_adjacent_symbols_counterexample :
    tokenize ("1 +- 2") ≠ .ok [.Num 1, .Plus, .Minus, .Num 2, .EOF] := by
  intro h
  rw [show tokenize ("1 +- 2") = .error (.unrecognised ("+-")) from rfl] at h
  exact nomatch h

/-- C3 amended: a punctuation character becomes its own token only when
it is delimited by whitespace, word characters, or parentheses; a maximal
run of adjacent non-parenthesis symbol characters is one fragment, and a
multi-character run such as `+-` fails tokenization with `unrecognised
token`.  In particular `"1 +- 2"` fails, while the delimited forms
tokenize one symbol per punctuation character, regardless of surrounding
whitespace. -/
theorem C3_tokenizer_amended :
    tokenize ("1 +- 2") = .error (.unrecognised ("+-")) ∧
    tokenize ("1 + - 2") = .ok [.Num 1, .Plus, .Minus, .Num 2, .EOF] ∧
    tokenize ("1+2") = .ok [.Num 1, .Plus, .Num 2, .EOF] ∧
    tokenize ("  1  *2  ") = .ok [.Num 1, .Mult, .Num 2, .EOF] ∧
    tokenize ("f(1 , 2)") =
      .ok [.ID ("f"), .LParen, .Num 1, .Comma, .Num 2, .RParen, .EOF] ∧
    tokenize ("2^3") = .ok [.Num 2, .Exp, .Num 3, .EOF] :=
  ⟨rfl, rfl, rfl, rfl, rfl, rfl⟩

/-- C4: `^` has binding power 40 and its `infixr` handler recurses at
binding power 39 (one less than its own), so `"2 ^ 3 ^ 4"` parses
right-associated as `Node(pow, 2, Node(pow, 3, 4))`. -/
theorem C4_power_right_assoc :
    parseLine ("2 ^ 3 ^ 4") =
      .ok (.Node pow (.ofNum 2) (.Node pow (.ofNum 3) (.ofNum 4))) ∧
    Tok.prio .Exp = 40 ∧
    (∀ fuel left rest, led (fuel + 1) .Exp left rest =
      (match parse fuel 39 rest with
       | .error e => .error e
       | .ok (r, ts1) => .ok (.Node pow left r, ts1))) :=
  ⟨rfl, rfl, fun _ _ _ => rfl⟩

/-- C5: infix `-` has binding power 10 and its handler recurses at that
same binding power, so `"1 - 2 - 3"` parses left-associated as
`Node(sub, Node(sub, 1, 2), 3)`. -/
theorem C5_minus_left_assoc :
    parseLine ("1 - 2 - 3") =
      .ok (.Node sub (.Node sub (.ofNum 1) (.ofNum 2)) (.ofNum 3)) ∧
    Tok.prio .Minus = 10 ∧
    (∀ fuel left rest, led (fuel + 1) .Minus left rest =
      (match parse fuel 10 rest with
       | .error e => .error e
       | .ok (r, ts1) => .ok (.Node sub left r, ts1))) :=
  ⟨rfl, rfl, fun _ _ _ => rfl⟩

/-- C6: `*` (binding power 30) binds tighter than `+` (binding power 10),
so `"1 + 2 * 3"` parses as `Node(add, 1, Node(mul, 2, 3))`; the prefix
behaviour of `(` parses a full expression at binding power 0, requires
and consumes the closing `)`, and returns the grouped value verbatim, so
`"(1 + 2) * 3"` parses as `Node(mul, Node(add, 1, 2), 3)`. -/
theorem C6_precedence_and_grouping :
    parseLine ("1 + 2 * 3") =
      .ok (.Node add (.ofNum 1) (.Node mul (.ofNum 2) (.ofNum 3))) ∧
    parseLine ("(1 + 2) * 3") =
      .ok (.Node mul (.Node add (.ofNum 1) (.ofNum 2)) (.ofNum 3)) ∧
    Tok.prio .Mult = 30 ∧ Tok.prio .Plus = 10 ∧
    (∀ fuel rest, nud (fuel + 1) .LParen rest =
      (match parse fuel 0 rest with
       | .error e => .error e
       | .ok (res, ts1) =>
         match ts1 with
         | [] => .error .emptyNext
         | u :: ts2 =>
           if isRParen u then .ok (res, ts2) else .error (.expectedRParen u))) :=
  ⟨rfl, rfl, rfl, rfl, fun _ _ => rfl⟩

/-- C8 counterexample: `*` also has no prefix behaviour, so the tokens
without prefix behaviour are not exactly `)`, `,` and end-of-input; in
prefix position `*` fails the same way, as on the input `"* 2"`. -/
theorem C8_exactness_counterexample :
    hasNud .Mult = false ∧
    Tok.Mult ≠ .RParen ∧ Tok.Mult ≠ .Comma ∧ Tok.Mult ≠ .EOF ∧
    parseLine ("* 2") = .error (.nudNone .Mult) :=
  ⟨rfl, by decide, by decide, by decide, rfl⟩

/-- C8 amended: the tokens without prefix behaviour are exactly `)`, `,`,
end-of-input, `/`, `*` and `^`; whenever such a token is consumed in
prefix position, `parse` fails with the no-prefix-behaviour error and
returns no AST; in particular `"1 + "` fails this way when the right
operand position hits end-of-input. -/
theorem C8_no_nud_fails :
    (∀ t : Tok, hasNud t = false ↔
      (t = .EOF ∨ t = .RParen ∨ t = .Comma ∨ t = .Div ∨ t = .Mult ∨ t = .Exp)) ∧
    (∀ (fuel up : Nat) (t : Tok) (rest : List Tok), hasNud t = false →
      parse (fuel + 2) up (t :: rest) = .error (.nudNone t)) ∧
    parseLine ("1 + ") = .error (.nudNone .EOF) := by
  refine ⟨?_, ?_, rfl⟩
  · intro t
    cases t <;> simp [hasNud]
  · intro fuel up t rest h
    cases t <;> first
      | rfl
      | exact nomatch h

/-- C8 witness: instantiating the no-prefix-behaviour theorem at the
token `,` on the concrete input stream `[, , EOF]`. -/
theorem C8_no_nud_fails_witness :
    parse 2 0 [Tok.Comma, Tok.EOF] = .error (.nudNone .Comma) :=
  C8_no_nud_fails.2.1 0 0 .Comma [.EOF] rfl

/-- C9: the infix behaviour of `(` asserts that the left value is a bare
identifier name (a Python string); for any other left value it fails with
the cannot-invoke error and builds no `CallNode`, as on the input
`"1(2)"`. -/
theorem C9_call_requires_identifier :
    (∀ (fuel : Nat) (left : Value) (rest : List Tok), (∀ s, left ≠ .ofStr s) →
      led (fuel + 1) .LParen left rest = .error .callNonIdent) ∧
    parseLine ("1(2)") = .error .callNonIdent := by
  refine ⟨?_, rfl⟩
  intro fuel left rest h
  cases left with
  | ofStr s => exact absurd rfl (h s)
  | ofNum n => rfl
  | Node op l r => rfl
  | UnitNode op p => rfl
  | CallNode f args => rfl

/-- C9 witness: instantiating the call-requires-identifier theorem at the
concrete left value `1` with an empty remaining stream. -/
theorem C9_call_requires_identifier_witness :
    led 1 .LParen (Value.ofNum 1) [] = .error .callNonIdent :=
  C9_call_requires_identifier.1 0 (.ofNum 1) [] (fun _ h => nomatch h)

theorem endsEOF_ne_nil {ts : List Tok} (h : endsEOF ts) : ts ≠ [] := by
  intro e
  subst e
  exact nomatch h

theorem endsEOF_tail {t : Tok} {rest : List Tok}
    (h : endsEOF (t :: rest)) (ht : t ≠ Tok.EOF) : endsEOF rest := by
  cases rest with
  | nil =>
    exact absurd (Option.some.inj (by simpa [endsEOF] using h)) ht
  | cons b l =>
    simpa [endsEOF, List.getLast?_cons_cons] using h

theorem ne_EOF_of_prio_pos {t : Tok} (h : 0 < Tok.prio t) : t ≠ Tok.EOF := by
  intro e
  subst e
  exact absurd h (by simp [Tok.prio])

theorem loop_ok_post :
    ∀ (fuel up : Nat) (left : Value) (ts : List Tok) (v : Value) (ts' : List Tok),
      run fuel (.loop up left ts) = .ok (v, ts') →
      ∃ t rest, ts' = t :: rest ∧ Tok.prio t ≤ up := by
  intro fuel
  induction fuel with
  | zero => intro up left ts v ts' h; exact nomatch h
  | succ f ih =>
    intro up left ts v ts' h
    cases ts with
    | nil => exact nomatch h
    | cons t rest =>
      simp only [run] at h
      by_cases hc : Tok.prio t > up
      · rw [if_pos hc] at h
        cases h1 : run f (Job.led t left rest) with
        | error e => simp only [h1] at h; exact nomatch h
        | ok p =>
          obtain ⟨l2, ts1⟩ := p
          simp only [h1] at h
          exact ih up l2 ts1 v ts' h
      · rw [if_neg hc] at h
        cases h
        exact ⟨t, rest, rfl, Nat.le_of_not_lt hc⟩

theorem parse_ok_post {fuel up : Nat} {ts : List Tok} {v : Value} {ts' : List Tok}
    (h : run fuel (.parse up ts) = .ok (v, ts')) :
    ∃ t rest, ts' = t :: rest ∧ Tok.prio t ≤ up := by
  cases fuel with
  | zero => exact nomatch h
  | succ f =>
    cases ts with
    | nil => exact nomatch h
    | cons t rest =>
      simp only [run] at h
      cases h1 : run f (Job.nud t rest) with
      | error e => simp only [h1] at h; exact nomatch h
      | ok p =>
        obtain ⟨left, ts1⟩ := p
        simp only [h1] at h
        exact loop_ok_post f up left ts1 v ts' h

theorem run_suffix :
    ∀ (fuel : Nat) (job : Job) (v : Value) (ts' : List Tok),
      run fuel job = .ok (v, ts') → SuffixPost job (v, ts') := by
  intro fuel
  induction fuel with
  | zero => intro job v ts' h; exact nomatch h
  | succ f ih =>
    intro job v ts' h
    cases job with
    | parse up ts =>
      cases ts with
      | nil => exact nomatch h
      | cons t rest =>
        simp only [run] at h
        cases h1 : run f (Job.nud t rest) with
        | error e => simp only [h1] at h; exact nomatch h
        | ok p =>
          obtain ⟨left, ts1⟩ := p
          simp only [h1] at h
          have hn := ih (Job.nud t rest) left ts1 h1
          have hl := ih (Job.loop up left ts1) v ts' h
          simp only [SuffixPost] at hn hl ⊢
          refine ⟨(hl.1.trans hn).trans (List.suffix_cons t rest), ?_⟩
          have e1 := hl.1.length_le
          have e2 := hn.length_le
          simp only [List.length_cons]
          omega
    | nud t rest =>
      cases t with
      | ID s =>
        cases h
        simp only [SuffixPost]
        exact List.suffix_refl _
      | Num n =>
        cases h
        simp only [SuffixPost]
        exact List.suffix_refl _
      | LParen =>
        simp only [run] at h
        cases h1 : run f (Job.parse 0 rest) with
        | error e => simp only [h1] at h; exact nomatch h
        | ok p =>
          obtain ⟨res, ts1⟩ := p
          simp only [h1] at h
          cases ts1 with
          | nil => exact nomatch h
          | cons u ts2 =>
            replace h : (if isRParen u = true then Except.ok (res, ts2)
                else Except.error (Err.expectedRParen u)) = Except.ok (v, ts') := h
            have hp := ih (Job.parse 0 rest) res (u :: ts2) h1
            simp only [SuffixPost] at hp ⊢
            by_cases hu : isRParen u = true
            · rw [if_pos hu] at h
              cases h
              exact (List.suffix_cons u _).trans hp.1
            · rw [if_neg hu] at h
              exact nomatch h
      | Plus =>
        simp only [run] at h
        have hp := ih (Job.parse (Tok.prio .Plus) rest) v ts' h
        simp only [SuffixPost] at hp ⊢
        exact hp.1
      | Minus =>
        simp only [run] at h
        cases h1 : run f (Job.parse (Tok.prio .Minus) rest) with
        | error e => simp only [h1] at h; exact nomatch h
        | ok p =>
          obtain ⟨w, ts1⟩ := p
          simp only [h1] at h
          have hp := ih (Job.parse (Tok.prio .Minus) rest) w ts1 h1
          cases h
          simp only [SuffixPost] at hp ⊢
          exact hp.1
      | EOF => exact nomatch h
      | RParen => exact nomatch h
      | Comma => exact nomatch h
      | Div => exact nomatch h
      | Mult => exact nomatch h
      | Exp => exact nomatch h
    | loop up left ts =>
      cases ts with
      | nil => exact nomatch h
      | cons t rest =>
        simp only [run] at h
        by_cases hc : Tok.prio t > up
        · rw [if_pos hc] at h
          cases h1 : run f (Job.led t left rest) with
          | error e => simp only [h1] at h; exact nomatch h
          | ok p =>
            obtain ⟨l2, ts1⟩ := p
            simp only [h1] at h
            have hd := ih (Job.led t left rest) l2 ts1 h1
            have hl := ih (Job.loop up l2 ts1) v ts' h
            simp only [SuffixPost] at hd hl ⊢
            exact ⟨(hl.1.trans hd.1).trans (List.suffix_cons t rest), hl.2⟩
        · rw [if_neg hc] at h
          cases h
          simp only [SuffixPost]
          exact ⟨List.suffix_refl _, by simp⟩
    | led t left rest =>
      cases t with
      | Plus =>
        simp only [run] at h
        cases h1 : run f (Job.parse (Tok.prio .Plus) rest) with
        | error e => simp only [h1] at h; exact nomatch h
        | ok p =>
          obtain ⟨r, ts1⟩ := p
          simp only [h1] at h
          have hp := ih (Job.parse (Tok.prio .Plus) rest) r ts1 h1
          cases h
          simp only [SuffixPost] at hp ⊢
          exact hp
      | Minus =>
        simp only [run] at h
        cases h1 : run f (Job.parse (Tok.prio .Minus) rest) with
        | error e => simp only [h1] at h; exact nomatch h
        | ok p =>
          obtain ⟨r, ts1⟩ := p
          simp only [h1] at h
          have hp := ih (Job.parse (Tok.prio .Minus) rest) r ts1 h1
          cases h
          simp only [SuffixPost] at hp ⊢
          exact hp
      | Div =>
        simp only [run] at h
        cases h1 : run f (Job.parse (Tok.prio .Div) rest) with
        | error e => simp only [h1] at h; exact nomatch h
        | ok p =>
          obtain ⟨r, ts1⟩ := p
          simp only [h1] at h
          have hp := ih (Job.parse (Tok.prio .Div) rest) r ts1 h1
          cases h
          simp only [SuffixPost] at hp ⊢
          exact hp
      | Mult =>
        simp only [run] at h
        cases h1 : run f (Job.parse (Tok.prio .Mult) rest) with
        | error e => simp only [h1] at h; exact nomatch h
        | ok p =>
          obtain ⟨r, ts1⟩ := p
          simp only [h1] at h
          have hp := ih (Job.parse (Tok.prio .Mult) rest) r ts1 h1
          cases h
          simp only [SuffixPost] at hp ⊢
          exact hp
      | Exp =>
        simp only [run] at h
        cases h1 : run f (Job.parse (Tok.prio .Exp - 1) rest) with
        | error e => simp only [h1] at h; exact nomatch h
        | ok p =>
          obtain ⟨r, ts1⟩ := p
          simp only [h1] at h
          have hp := ih (Job.parse (Tok.prio .Exp - 1) rest) r ts1 h1
          cases h
          simp only [SuffixPost] at hp ⊢
          exact hp
      | LParen =>
        cases left with
        | ofStr name =>
          simp only [run] at h
          have hp := ih (Job.callArgs name [] rest) v ts' h
          simp only [SuffixPost] at hp ⊢
          exact hp
        | ofNum n => exact nomatch h
        | Node op l r => exact nomatch h
        | UnitNode op pm => exact nomatch h
        | CallNode fn as => exact nomatch h
      | EOF => exact nomatch h
      | RParen => exact nomatch h
      | Comma => exact nomatch h
      | ID s => exact nomatch h
      | Num n => exact nomatch h
    | callArgs name args ts =>
      cases ts with
      | nil => exact nomatch h
      | cons t rest =>
        simp only [run] at h
        by_cases hr : isRParen t = true
        · rw [if_pos hr] at h
          cases h
          simp only [SuffixPost]
          exact ⟨List.suffix_cons t _, by simp⟩
        · rw [if_neg hr] at h
          cases h1 : run f (Job.parse 0 (t :: rest)) with
          | error e => simp only [h1] at h; exact nomatch h
          | ok p =>
            obtain ⟨w, ts1⟩ := p
            simp only [h1] at h
            cases ts1 with
            | nil => exact nomatch h
            | cons u ts2 =>
              replace h : (if isComma u = true then run f (Job.callArgs name (args ++ [w]) ts2)
                  else Except.error (Err.expectedComma u)) = Except.ok (v, ts') := h
              by_cases hu : isComma u = true
              · rw [if_pos hu] at h
                have hp := ih (Job.parse 0 (t :: rest)) w (u :: ts2) h1
                have hc2 := ih (Job.callArgs name (args ++ [w]) ts2) v ts' h
                simp only [SuffixPost] at hp hc2 ⊢
                refine ⟨(hc2.1.trans ((List.suffix_cons u ts2).trans hp.1)), ?_⟩
                have e1 := hc2.2
                have e2 := hp.2
                simp only [List.length_cons] at e2 ⊢
                omega
              · rw [if_neg hu] at h
                exact nomatch h

theorem run_noEmpty :
    ∀ (fuel : Nat) (job : Job), fuelReq job ≤ fuel → jobPre job →
      NoEmptyPost (run fuel job) := by
  intro fuel
  induction fuel with
  | zero =>
    intro job hf _
    exact absurd hf (by cases job <;> simp only [fuelReq] <;> omega)
  | succ f ih =>
    intro job hf hpre
    cases job with
    | parse up ts =>
      cases ts with
      | nil => exact absurd rfl (endsEOF_ne_nil hpre)
      | cons t rest =>
        have hfn : fuelReq (Job.nud t rest) ≤ f := by
          simp only [fuelReq, List.length_cons] at hf ⊢
          omega
        have hn := ih (Job.nud t rest) hfn hpre
        cases h1 : run f (Job.nud t rest) with
        | error e =>
          have hstep : run (f + 1) (Job.parse up (t :: rest)) = .error e := by
            simp only [run]
            rw [h1]
          rw [hstep]
          rw [h1] at hn
          exact hn
        | ok p =>
          obtain ⟨left, ts1⟩ := p
          rw [h1] at hn
          have hend1 : endsEOF ts1 := hn.2.2.2 left ts1 rfl
          have hsuf := run_suffix f (Job.nud t rest) left ts1 h1
          simp only [SuffixPost] at hsuf
          have hfl : fuelReq (Job.loop up left ts1) ≤ f := by
            have hlen := hsuf.length_le
            simp only [fuelReq, List.length_cons] at hf ⊢
            omega
          have hstep : run (f + 1) (Job.parse up (t :: rest))
              = run f (Job.loop up left ts1) := by
            simp only [run]
            rw [h1]
          rw [hstep]
          exact ih (Job.loop up left ts1) hfl hend1
    | nud t rest =>
      cases t with
      | ID s =>
        refine ⟨(fun hh => nomatch hh), (fun hh => nomatch hh), (fun hh => nomatch hh), ?_⟩
        intro v ts' hh
        replace hh : Except.ok (Value.ofStr s, rest) = Except.ok (v, ts') := hh
        cases hh
        exact endsEOF_tail hpre (fun e => nomatch e)
      | Num n =>
        refine ⟨(fun hh => nomatch hh), (fun hh => nomatch hh), (fun hh => nomatch hh), ?_⟩
        intro v ts' hh
        replace hh : Except.ok (Value.ofNum n, rest) = Except.ok (v, ts') := hh
        cases hh
        exact endsEOF_tail hpre (fun e => nomatch e)
      | LParen =>
        have hrest : endsEOF rest := endsEOF_tail hpre (fun e => nomatch e)
        have hfp : fuelReq (Job.parse 0 rest) ≤ f := by
          simp only [fuelReq] at hf ⊢
          omega
        have hp := ih (Job.parse 0 rest) hfp hrest
        cases h1 : run f (Job.parse 0 rest) with
        | error e =>
          have hstep : run (f + 1) (Job.nud Tok.LParen rest) = .error e := by
            simp only [run]
            rw [h1]
          rw [hstep]
          rw [h1] at hp
          exact hp
        | ok p =>
          obtain ⟨res, ts1⟩ := p
          rw [h1] at hp
          have hend1 : endsEOF ts1 := hp.2.2.2 res ts1 rfl
          cases ts1 with
          | nil => exact absurd rfl (endsEOF_ne_nil hend1)
          | cons u ts2 =>
            have hstep : run (f + 1) (Job.nud Tok.LParen rest)
                = (if isRParen u = true then Except.ok (res, ts2)
                   else Except.error (Err.expectedRParen u)) := by
              simp only [run]
              rw [h1]
            rw [hstep]
            by_cases hu : isRParen u = true
            · rw [if_pos hu]
              refine ⟨(fun hh => nomatch hh), (fun hh => nomatch hh), (fun hh => nomatch hh), ?_⟩
              intro v ts' hh
              have huR : u = Tok.RParen := by
                cases u <;> first | rfl | exact nomatch hu
              cases hh
              exact endsEOF_tail hend1 (by rw [huR]; exact fun e => nomatch e)
            · rw [if_neg hu]
              exact ⟨(fun hh => nomatch hh), (fun hh => nomatch hh), (fun hh => nomatch hh),
                (fun v ts' hh => nomatch hh)⟩
      | Plus =>
        have hrest : endsEOF rest := endsEOF_tail hpre (fun e => nomatch e)
        have hfp : fuelReq (Job.parse (Tok.prio .Plus) rest) ≤ f := by
          simp only [fuelReq] at hf ⊢
          omega
        have hp := ih (Job.parse (Tok.prio .Plus) rest) hfp hrest
        have hstep : run (f + 1) (Job.nud Tok.Plus rest)
            = run f (Job.parse (Tok.prio .Plus) rest) := by
          simp only [run]
        rw [hstep]
        exact hp
      | Minus =>
        have hrest : endsEOF rest := endsEOF_tail hpre (fun e => nomatch e)
        have hfp : fuelReq (Job.parse (Tok.prio .Minus) rest) ≤ f := by
          simp only [fuelReq] at hf ⊢
          omega
        have hp := ih (Job.parse (Tok.prio .Minus) rest) hfp hrest
        cases h1 : run f (Job.parse (Tok.prio .Minus) rest) with
        | error e =>
          have hstep : run (f + 1) (Job.nud Tok.Minus rest) = .error e := by
            simp only [run]
            rw [h1]
          rw [hstep]
          rw [h1] at hp
          exact hp
        | ok p =>
          obtain ⟨w, ts1⟩ := p
          rw [h1] at hp
          have hstep : run (f + 1) (Job.nud Tok.Minus rest)
              = .ok (.UnitNode (.pyStr ("-")) w, ts1) := by
            simp only [run]
            rw [h1]
          rw [hstep]
          refine ⟨(fun hh => nomatch hh), (fun hh => nomatch hh), (fun hh => nomatch hh), ?_⟩
          intro v ts' hh
          cases hh
          exact hp.2.2.2 w _ rfl
      | EOF =>
        exact ⟨(fun hh => nomatch hh), (fun hh => nomatch hh), (fun hh => nomatch hh),
          (fun v ts' hh => nomatch hh)⟩
      | RParen =>
        exact ⟨(fun hh => nomatch hh), (fun hh => nomatch hh), (fun hh => nomatch hh),
          (fun v ts' hh => nomatch hh)⟩
      | Comma =>
        exact ⟨(fun hh => nomatch hh), (fun hh => nomatch hh), (fun hh => nomatch hh),
          (fun v ts' hh => nomatch hh)⟩
      | Div =>
        exact ⟨(fun hh => nomatch hh), (fun hh => nomatch hh), (fun hh => nomatch hh),
          (fun v ts' hh => nomatch hh)⟩
      | Mult =>
        exact ⟨(fun hh => nomatch hh), (fun hh => nomatch hh), (fun hh => nomatch hh),
          (fun v ts' hh => nomatch hh)⟩
      | Exp =>
        exact ⟨(fun hh => nomatch hh), (fun hh => nomatch hh), (fun hh => nomatch hh),
          (fun v ts' hh => nomatch hh)⟩
    | loop up left ts =>
      cases ts with
      | nil => exact absurd rfl (endsEOF_ne_nil hpre)
      | cons t rest =>
        by_cases hc : Tok.prio t > up
        · have hrest : endsEOF rest := endsEOF_tail hpre (ne_EOF_of_prio_pos (by omega))
          have hfd : fuelReq (Job.led t left rest) ≤ f := by
            simp only [fuelReq, List.length_cons] at hf ⊢
            omega
          have hd := ih (Job.led t left rest) hfd hrest
          cases h1 : run f (Job.led t left rest) with
          | error e =>
            have hstep : run (f + 1) (Job.loop up left (t :: rest)) = .error e := by
              simp only [run]
              rw [if_pos hc, h1]
            rw [hstep]
            rw [h1] at hd
            exact hd
          | ok p =>
            obtain ⟨l2, ts1⟩ := p
            rw [h1] at hd
            have hend1 : endsEOF ts1 := hd.2.2.2 l2 ts1 rfl
            have hsuf := run_suffix f (Job.led t left rest) l2 ts1 h1
            simp only [SuffixPost] at hsuf
            have hfl : fuelReq (Job.loop up l2 ts1) ≤ f := by
              have hlen := hsuf.2
              simp only [fuelReq, List.length_cons] at hf ⊢
              omega
            have hstep : run (f + 1) (Job.loop up left (t :: rest))
                = run f (Job.loop up l2 ts1) := by
              simp only [run]
              rw [if_pos hc, h1]
            rw [hstep]
            exact ih (Job.loop up l2 ts1) hfl hend1
        · have hstep : run (f + 1) (Job.loop up left (t :: rest))
              = .ok (left, t :: rest) := by
            simp only [run]
            rw [if_neg hc]
          rw [hstep]
          refine ⟨(fun hh => nomatch hh), (fun hh => nomatch hh), (fun hh => nomatch hh), ?_⟩
          intro v ts' hh
          cases hh
          exact hpre
    | led t left rest =>
      cases t with
      | Plus =>
        have hfp : fuelReq (Job.parse (Tok.prio .Plus) rest) ≤ f := by
          simp only [fuelReq] at hf ⊢
          omega
        have hp := ih (Job.parse (Tok.prio .Plus) rest) hfp hpre
        cases h1 : run f (Job.parse (Tok.prio .Plus) rest) with
        | error e =>
          have hstep : run (f + 1) (Job.led Tok.Plus left rest) = .error e := by
            simp only [run]
            rw [h1]
          rw [hstep]
          rw [h1] at hp
          exact hp
        | ok p =>
          obtain ⟨r, ts1⟩ := p
          rw [h1] at hp
          have hstep : run (f + 1) (Job.led Tok.Plus left rest)
              = .ok (.Node add left r, ts1) := by
            simp only [run]
            rw [h1]
          rw [hstep]
          refine ⟨(fun hh => nomatch hh), (fun hh => nomatch hh), (fun hh => nomatch hh), ?_⟩
          intro v ts' hh
          cases hh
          exact hp.2.2.2 r _ rfl
      | Minus =>
        have hfp : fuelReq (Job.parse (Tok.prio .Minus) rest) ≤ f := by
          simp only [fuelReq] at hf ⊢
          omega
        have hp := ih (Job.parse (Tok.prio .Minus) rest) hfp hpre
        cases h1 : run f (Job.parse (Tok.prio .Minus) rest) with
        | error e =>
          have hstep : run (f + 1) (Job.led Tok.Minus left rest) = .error e := by
            simp only [run]
            rw [h1]
          rw [hstep]
          rw [h1] at hp
          exact hp
        | ok p =>
          obtain ⟨r, ts1⟩ := p
          rw [h1] at hp
          have hstep : run (f + 1) (Job.led Tok.Minus left rest)
              = .ok (.Node sub left r, ts1) := by
            simp only [run]
            rw [h1]
          rw [hstep]
          refine ⟨(fun hh => nomatch hh), (fun hh => nomatch hh), (fun hh => nomatch hh), ?_⟩
          intro v ts' hh
          cases hh
          exact hp.2.2.2 r _ rfl
      | Div =>
        have hfp : fuelReq (Job.parse (Tok.prio .Div) rest) ≤ f := by
          simp only [fuelReq] at hf ⊢
          omega
        have hp := ih (Job.parse (Tok.prio .Div) rest) hfp hpre
        cases h1 : run f (Job.parse (Tok.prio .Div) rest) with
        | error e =>
          have hstep : run (f + 1) (Job.led Tok.Div left rest) = .error e := by
            simp only [run]
            rw [h1]
          rw [hstep]
          rw [h1] at hp
          exact hp
        | ok p =>
          obtain ⟨r, ts1⟩ := p
          rw [h1] at hp
          have hstep : run (f + 1) (Job.led Tok.Div left rest)
              = .ok (.Node ifloordiv left r, ts1) := by
            simp only [run]
            rw [h1]
          rw [hstep]
          refine ⟨(fun hh => nomatch hh), (fun hh => nomatch hh), (fun hh => nomatch hh), ?_⟩
          intro v ts' hh
          cases hh
          exact hp.2.2.2 r _ rfl
      | Mult =>
        have hfp : fuelReq (Job.parse (Tok.prio .Mult) rest) ≤ f := by
          simp only [fuelReq] at hf ⊢
          omega
        have hp := ih (Job.parse (Tok.prio .Mult) rest) hfp hpre
        cases h1 : run f (Job.parse (Tok.prio .Mult) rest) with
        | error e =>
          have hstep : run (f + 1) (Job.led Tok.Mult left rest) = .error e := by
            simp only [run]
            rw [h1]
          rw [hstep]
          rw [h1] at hp
          exact hp
        | ok p =>
          obtain ⟨r, ts1⟩ := p
          rw [h1] at hp
          have hstep : run (f + 1) (Job.led Tok.Mult left rest)
              = .ok (.Node mul left r, ts1) := by
            simp only [run]
            rw [h1]
          rw [hstep]
          refine ⟨(fun hh => nomatch hh), (fun hh => nomatch hh), (fun hh => nomatch hh), ?_⟩
          intro v ts' hh
          cases hh
          exact hp.2.2.2 r _ rfl
      | Exp =>
        have hfp : fuelReq (Job.parse (Tok.prio .Exp - 1) rest) ≤ f := by
          simp only [fuelReq] at hf ⊢
          omega
        have hp := ih (Job.parse (Tok.prio .Exp - 1) rest) hfp hpre
        cases h1 : run f (Job.parse (Tok.prio .Exp - 1) rest) with
        | error e =>
          have hstep : run (f + 1) (Job.led Tok.Exp left rest) = .error e := by
            simp only [run]
            rw [h1]
          rw [hstep]
          rw [h1] at hp
          exact hp
        | ok p =>
          obtain ⟨r, ts1⟩ := p
          rw [h1] at hp
          have hstep : run (f + 1) (Job.led Tok.Exp left rest)
              = .ok (.Node pow left r, ts1) := by
            simp only [run]
            rw [h1]
          rw [hstep]
          refine ⟨(fun hh => nomatch hh), (fun hh => nomatch hh), (fun hh => nomatch hh), ?_⟩
          intro v ts' hh
          cases hh
          exact hp.2.2.2 r _ rfl
      | LParen =>
        cases left with
        | ofStr name =>
          have hfc : fuelReq (Job.callArgs name [] rest) ≤ f := by
            simp only [fuelReq] at hf ⊢
            omega
          have hc := ih (Job.callArgs name [] rest) hfc hpre
          have hstep : run (f + 1) (Job.led Tok.LParen (.ofStr name) rest)
              = run f (Job.callArgs name [] rest) := by
            simp only [run]
          rw [hstep]
          exact hc
        | ofNum n =>
          exact ⟨(fun hh => nomatch hh), (fun hh => nomatch hh), (fun hh => nomatch hh),
            (fun v ts' hh => nomatch hh)⟩
        | Node op l r =>
          exact ⟨(fun hh => nomatch hh), (fun hh => nomatch hh), (fun hh => nomatch hh),
            (fun v ts' hh => nomatch hh)⟩
        | UnitNode op pm =>
          exact ⟨(fun hh => nomatch hh), (fun hh => nomatch hh), (fun hh => nomatch hh),
            (fun v ts' hh => nomatch hh)⟩
        | CallNode fn as =>
          exact ⟨(fun hh => nomatch hh), (fun hh => nomatch hh), (fun hh => nomatch hh),
            (fun v ts' hh => nomatch hh)⟩
      | EOF =>
        exact ⟨(fun hh => nomatch hh), (fun hh => nomatch hh), (fun hh => nomatch hh),
          (fun v ts' hh => nomatch hh)⟩
      | RParen =>
        exact ⟨(fun hh => nomatch hh), (fun hh => nomatch hh), (fun hh => nomatch hh),
          (fun v ts' hh => nomatch hh)⟩
      | Comma =>
        exact ⟨(fun hh => nomatch hh), (fun hh => nomatch hh), (fun hh => nomatch hh),
          (fun v ts' hh => nomatch hh)⟩
      | ID s =>
        exact ⟨(fun hh => nomatch hh), (fun hh => nomatch hh), (fun hh => nomatch hh),
          (fun v ts' hh => nomatch hh)⟩
      | Num n =>
        exact ⟨(fun hh => nomatch hh), (fun hh => nomatch hh), (fun hh => nomatch hh),
          (fun v ts' hh => nomatch hh)⟩
    | callArgs name args ts =>
      cases ts with
      | nil => exact absurd rfl (endsEOF_ne_nil hpre)
      | cons t rest =>
        by_cases hr : isRParen t = true
        · have hstep : run (f + 1) (Job.callArgs name args (t :: rest))
              = .ok (.CallNode name args, rest) := by
            simp only [run]
            rw [if_pos hr]
          rw [hstep]
          refine ⟨(fun hh => nomatch hh), (fun hh => nomatch hh), (fun hh => nomatch hh), ?_⟩
          intro v ts' hh
          have htR : t = Tok.RParen := by
            cases t <;> first | rfl | exact nomatch hr
          cases hh
          exact endsEOF_tail hpre (by rw [htR]; exact fun e => nomatch e)
        · have hfp : fuelReq (Job.parse 0 (t :: rest)) ≤ f := by
            simp only [fuelReq, List.length_cons] at hf ⊢
            omega
          have hp := ih (Job.parse 0 (t :: rest)) hfp hpre
          cases h1 : run f (Job.parse 0 (t :: rest)) with
          | error e =>
            have hstep : run (f + 1) (Job.callArgs name args (t :: rest)) = .error e := by
              simp only [run]
              rw [if_neg hr, h1]
            rw [hstep]
            rw [h1] at hp
            exact hp
          | ok p =>
            obtain ⟨w, ts1⟩ := p
            rw [h1] at hp
            have hend1 : endsEOF ts1 := hp.2.2.2 w ts1 rfl
            cases ts1 with
            | nil => exact absurd rfl (endsEOF_ne_nil hend1)
            | cons u ts2 =>
              have hstep : run (f + 1) (Job.callArgs name args (t :: rest))
                  = (if isComma u = true then run f (Job.callArgs name (args ++ [w]) ts2)
                     else Except.error (Err.expectedComma u)) := by
                simp only [run]
                rw [if_neg hr, h1]
              rw [hstep]
              by_cases hu : isComma u = true
              · rw [if_pos hu]
                have hsuf := run_suffix f (Job.parse 0 (t :: rest)) w (u :: ts2) h1
                simp only [SuffixPost] at hsuf
                have hfc : fuelReq (Job.callArgs name (args ++ [w]) ts2) ≤ f := by
                  have hlen := hsuf.2
                  simp only [fuelReq, List.length_cons] at hf hlen ⊢
                  omega
                have hend2 : endsEOF ts2 := endsEOF_tail hend1 (by
                  have huC : u = Tok.Comma := by
                    cases u <;> first | rfl | exact nomatch hu
                  rw [huC]
                  exact fun e => nomatch e)
                exact ih (Job.callArgs name (args ++ [w]) ts2) hfc hend2
              · rw [if_neg hu]
                exact ⟨(fun hh => nomatch hh), (fun hh => nomatch hh), (fun hh => nomatch hh),
                  (fun v ts' hh => nomatch hh)⟩

/-- C7: the continuation loop of `Parser.parse` consumes a peeked token
only while its binding power strictly exceeds `up_prio` — the moment the
peeked token's binding power is at most `up_prio` it stops without
consuming — and whenever `parse` returns normally the next unconsumed
token's binding power is at most `up_prio`. -/
theorem C7_binding_power_discipline :
    (∀ (fuel up : Nat) (left : Value) (t : Tok) (rest : List Tok),
      Tok.prio t ≤ up →
      loop (fuel + 1) up left (t :: rest) = .ok (left, t :: rest)) ∧
    (∀ (fuel up : Nat) (left : Value) (t : Tok) (rest : List Tok),
      up < Tok.prio t →
      loop (fuel + 1) up left (t :: rest)
        = (match led fuel t left rest with
           | .error e => .error e
           | .ok (l2, ts1) => loop fuel up l2 ts1)) ∧
    (∀ (fuel up : Nat) (ts : List Tok) (v : Value) (ts' : List Tok),
      parse fuel up ts = .ok (v, ts') →
      ∃ t rest, ts' = t :: rest ∧ Tok.prio t ≤ up) := by
  refine ⟨?_, ?_, ?_⟩
  · intro fuel up left t rest h
    show run (fuel + 1) (Job.loop up left (t :: rest)) = .ok (left, t :: rest)
    simp only [run]
    rw [if_neg (Nat.not_lt.2 h)]
  · intro fuel up left t rest h
    show run (fuel + 1) (Job.loop up left (t :: rest)) = _
    simp only [run]
    rw [if_pos h]
    cases h1 : run fuel (Job.led t left rest) with
    | error e =>
      show Except.error e = (match led fuel t left rest with
        | Except.error e => Except.error e
        | Except.ok (l2, ts1) => loop fuel up l2 ts1)
      rw [show led fuel t left rest = Except.error e from h1]
    | ok p =>
      obtain ⟨l2, ts1⟩ := p
      show run fuel (Job.loop up l2 ts1) = (match led fuel t left rest with
        | Except.error e => Except.error e
        | Except.ok (l2, ts1) => loop fuel up l2 ts1)
      rw [show led fuel t left rest = Except.ok (l2, ts1) from h1]
      rfl
  · intro fuel up ts v ts' h
    exact parse_ok_post h

/-- C7 witness: at `up_prio = 10` the loop stops without consuming on a
peeked `+` of binding power 10, and a completed `parse(0)` on
`[1, EOF]` leaves the `EOF` of binding power 0 unconsumed. -/
theorem C7_binding_power_discipline_witness :
    loop 5 10 (Value.ofNum 1) [Tok.Plus, Tok.EOF]
      = .ok (Value.ofNum 1, [Tok.Plus, Tok.EOF]) ∧
    loop 4 0 (Value.ofNum 1) [Tok.Plus, Tok.Num 2, Tok.EOF]
      = .ok (.Node add (.ofNum 1) (.ofNum 2), [Tok.EOF]) ∧
    ∃ t rest, [Tok.EOF] = t :: rest ∧ Tok.prio t ≤ 0 :=
  ⟨C7_binding_power_discipline.1 4 10 (Value.ofNum 1) Tok.Plus [Tok.EOF] (by decide),
   (C7_binding_power_discipline.2.1 3 0 (Value.ofNum 1) Tok.Plus
      [Tok.Num 2, Tok.EOF] (by decide)).trans (by rfl),
   C7_binding_power_discipline.2.2 9 0 [Tok.Num 1, Tok.EOF]
     (Value.ofNum 1) [Tok.EOF] (by rfl)⟩

/-- C10: for every token list that still ends with the `EOF` sentinel and
every binding power, once the fuel is at least `3 * length + 3` the
engine never exhausts it (the recursion of `Parser.parse` terminates,
returning a value or raising), and it never performs `Lexer.next` or
`Lexer.peek` on an empty token list; on success the remaining stream
still ends with the sentinel. -/
theorem C10_parse_terminates_no_empty_access :
    ∀ (b : Nat) (ts : List Tok) (fuel : Nat),
      endsEOF ts → 3 * ts.length + 3 ≤ fuel →
      parse fuel b ts ≠ .error .outOfFuel ∧
      parse fuel b ts ≠ .error .emptyNext ∧
      parse fuel b ts ≠ .error .emptyPeek ∧
      (∀ v ts', parse fuel b ts = .ok (v, ts') → endsEOF ts') := by
  intro b ts fuel he hf
  exact run_noEmpty fuel (Job.parse b ts) hf he

/-- C10 witness: instantiated on the sentinel-terminated stream of
`"1"` at binding power 0 with fuel 9. -/
theorem C10_parse_terminates_no_empty_access_witness :
    parse 9 0 [Tok.Num 1, Tok.EOF] ≠ .error .outOfFuel ∧
    parse 9 0 [Tok.Num 1, Tok.EOF] ≠ .error .emptyNext ∧
    parse 9 0 [Tok.Num 1, Tok.EOF] ≠ .error .emptyPeek ∧
    (∀ v ts', parse 9 0 [Tok.Num 1, Tok.EOF] = .ok (v, ts') → endsEOF ts') :=
  C10_parse_terminates_no_empty_access 0 [Tok.Num 1, Tok.EOF] 9 (by rfl) (by decide)

end Pratt
